import Mathlib

/-!
Shallow embedding of the log-structured key-value engine in
`src/engine/kvs.rs` (`KvStore`).

The log file is modelled as a `List Char` (one `Char` per byte of the real
log; offsets count list positions).  The engine owns two file handles bound
to the log's inode; `compact` unlinks the path and renames a freshly written
file there, so after a compaction the handles keep reading the *old* inode
while the path holds the rewritten log.  The state therefore carries
`file` (contents of the inode the handles reference) and `disk`
(contents at the path, `none` while both still coincide with `file`).

Serialization mirrors `serde_json`: `Set {key, value}` becomes
`\x7b"Set":\x7b"key":"...","value":"..."\x7d\x7d` and `Remove {key}`
becomes `\x7b"Remove":\x7b"key":"..."\x7d\x7d`, with `"` and `\`
escaped inside strings.  `set` writes `"\r\n"` *before* the JSON record;
`remove` writes the JSON record and then `"\r\n"`.
-/

set_option maxRecDepth 100000

deriving instance DecidableEq for Except

namespace Kvs

/-- The two record kinds of `Command` in `kvs.rs`. -/
inductive Command where
  | set (key value : String)
  | remove (key : String)
deriving DecidableEq

/-- `Pointer`: position and length of a serialized command in the log. -/
structure Pointer where
  pos : Nat
  len : Nat
deriving DecidableEq

/-- Error kinds the engine can surface (`MyError` in the source). -/
inductive MyError where
  | keyNotFound
  | serde
deriving DecidableEq

/-- JSON string escaping as `serde_json` performs it on the characters the
engine ever writes: `\` and `"` get a backslash escape. -/
def escapeChar (c : Char) : List Char :=
  if c = '\\' then ['\\', '\\']
  else if c = '"' then ['\\', '"']
  else [c]

/-- Escape a list of characters. -/
def escList (cs : List Char) : List Char :=
  (cs.map escapeChar).flatten

/-- The opening bytes of a serialized `Set` record. -/
def setOpen : List Char :=
  ['\x7b', '"', 'S', 'e', 't', '"', ':', '\x7b', '"', 'k', 'e', 'y', '"', ':', '"']

/-- The bytes between the key string and the value string of a `Set` record,
after the key's closing quote. -/
def midRest : List Char :=
  [',', '"', 'v', 'a', 'l', 'u', 'e', '"', ':', '"']

/-- The opening bytes of a serialized `Remove` record. -/
def removeOpen : List Char :=
  ['\x7b', '"', 'R', 'e', 'm', 'o', 'v', 'e', '"', ':', '\x7b', '"', 'k', 'e', 'y', '"', ':', '"']

/-- The closing bytes of both record kinds: closing quote and two braces. -/
def closeStr : List Char := ['"', '\x7d', '\x7d']

/-- The two closing braces the parser expects after a closing quote. -/
def braceClose : List Char := ['\x7d', '\x7d']

/-- CRLF, written by `set` before and by `remove` after the JSON record. -/
def crlf : List Char := ['\r', '\n']

/-- Byte-wise lexicographic comparison of character lists: Rust's `Ord` for
`String` compares the UTF-8 bytes, and `BTreeMap<String, _>` sorts keys by
it. -/
def ltB : List Char → List Char → Bool
  | _, [] => false
  | [], _ :: _ => true
  | a :: as, b :: bs =>
    if a.toNat < b.toNat then true
    else if b.toNat < a.toNat then false
    else ltB as bs

/-- The `BTreeMap<String, _>` key order. -/
def strLt (a b : String) : Bool := ltB a.data b.data

/-- `serde_json::to_writer` on a `Command`. -/
def encodeCmd : Command → List Char
  | .set k v => setOpen ++ escList k.data ++ '"' :: midRest ++ escList v.data ++ closeStr
  | .remove k => removeOpen ++ escList k.data ++ closeStr

/-- The whitespace characters `serde_json` skips between values. -/
def isWsChar (c : Char) : Bool :=
  c = ' ' || c = '\t' || c = '\n' || c = '\r'

/-- Number of leading whitespace characters. -/
def countWs : List Char → Nat
  | [] => 0
  | c :: rest => if isWsChar c then countWs rest + 1 else 0

/-- `true` when only whitespace remains (stream end for the deserializer). -/
def onlyWs (s : List Char) : Bool := s.all isWsChar

/-- Consume an expected literal from the front of the input. -/
def dropLit : List Char → List Char → Option (List Char)
  | [], s => some s
  | _ :: _, [] => none
  | c :: cs, d :: ds => if d = c then dropLit cs ds else none

/-- Parse a JSON string body (after the opening quote) up to and including
the closing quote, undoing the escapes of `escapeChar`.  Returns the decoded
characters and the number of input characters consumed. -/
def parseStringBody : List Char → Option (List Char × Nat)
  | [] => none
  | c :: rest =>
    if c = '"' then some ([], 1)
    else if c = '\\' then
      match rest with
      | [] => none
      | d :: rest2 =>
        if d = '\\' || d = '"' then
          match parseStringBody rest2 with
          | some (s, n) => some (d :: s, n + 2)
          | none => none
        else none
    else
      match parseStringBody rest with
      | some (s, n) => some (c :: s, n + 1)
      | none => none

/-- Parse one serialized `Set` record from the front of the input.
Returns the command and the number of characters consumed. -/
def parseSet (s : List Char) : Option (Command × Nat) :=
  match dropLit setOpen s with
  | none => none
  | some r1 =>
    match parseStringBody r1 with
    | none => none
    | some (k, n1) =>
      match dropLit midRest (r1.drop n1) with
      | none => none
      | some r2 =>
        match parseStringBody r2 with
        | none => none
        | some (v, n2) =>
          match dropLit braceClose (r2.drop n2) with
          | none => none
          | some _ =>
            some (.set (String.mk k) (String.mk v),
              setOpen.length + n1 + midRest.length + n2 + braceClose.length)

/-- Parse one serialized `Remove` record from the front of the input. -/
def parseRemove (s : List Char) : Option (Command × Nat) :=
  match dropLit removeOpen s with
  | none => none
  | some r1 =>
    match parseStringBody r1 with
    | none => none
    | some (k, n1) =>
      match dropLit braceClose (r1.drop n1) with
      | none => none
      | some _ =>
        some (.remove (String.mk k), removeOpen.length + n1 + braceClose.length)

/-- Parse one `Command` value from the front of the input, after skipping
leading whitespace; the returned count includes the skipped whitespace
(`serde_json`'s stream deserializer reports the byte offset at the end of
the value just read). -/
def parseCmd (s : List Char) : Option (Command × Nat) :=
  let w := countWs s
  match parseSet (s.drop w) with
  | some (c, n) => some (c, w + n)
  | none =>
    match parseRemove (s.drop w) with
    | some (c, n) => some (c, w + n)
    | none => none

/-- `serde_json::from_reader` over an exact byte range: one value, possibly
surrounded by whitespace, and nothing else. -/
def decodeOne (bs : List Char) : Option Command :=
  match parseCmd bs with
  | some (c, n) => if onlyWs (bs.drop n) then some c else none
  | none => none

/-- Lookup in the `BTreeMap` index, modelled as an association list kept in
strictly increasing key order by `insertIdx`. -/
def lookupIdx : List (String × Pointer) → String → Option Pointer
  | [], _ => none
  | (k', p) :: rest, k => if k = k' then some p else lookupIdx rest k

/-- `BTreeMap::insert`: returns the previous binding (if any) and the new
map, keeping keys sorted. -/
def insertIdx (k : String) (p : Pointer) :
    List (String × Pointer) → Option Pointer × List (String × Pointer)
  | [] => (none, [(k, p)])
  | (k', p') :: rest =>
    if strLt k k' then (none, (k, p) :: (k', p') :: rest)
    else if k = k' then (some p', (k, p) :: rest)
    else
      let r := insertIdx k p rest
      (r.1, (k', p') :: r.2)

/-- `BTreeMap::remove`: returns the removed binding (if any) and the new map. -/
def removeIdx (k : String) :
    List (String × Pointer) → Option Pointer × List (String × Pointer)
  | [] => (none, [])
  | (k', p) :: rest =>
    if k = k' then (some p, rest)
    else
      let r := removeIdx k rest
      (r.1, (k', p) :: r.2)

/-- The size threshold that triggers compaction (`COMPACT_BYTES`). -/
def COMPACT_BYTES : Nat := 1024

/-- The engine state (`KvStore`): `file` is the content of the inode the
reader/writer handles reference; `disk` is the content at the log path when
it has diverged from `file` (after a compaction), `none` while they are the
same inode; `index` is the `BTreeMap`; `readerPos` the reader handle's
cursor. -/
structure KvStore where
  file : List Char
  disk : Option (List Char)
  index : List (String × Pointer)
  uncompacted : Nat
  readerPos : Nat
deriving DecidableEq

/-- A fresh store opened on an empty directory: empty log, empty index. -/
def openFresh : KvStore :=
  { file := [], disk := none, index := [], uncompacted := 0, readerPos := 0 }

/-- The full record `set` appends: CRLF then the serialized `Set` command. -/
def setRecord (k v : String) : List Char := crlf ++ encodeCmd (.set k v)

/-- The full record `remove` appends: the serialized `Remove` command then
CRLF. -/
def removeRecord (k : String) : List Char := encodeCmd (.remove k) ++ crlf

/-- `KvStore::compact`: copy each live pointer's byte range (in index order)
from the old log into a fresh file, then unlink the log path and rename the
new file into place.  The open handles still reference the old inode, so
`file` and `index` are untouched; the path now holds the rewritten log and
`uncompacted` is reset to 0.  The reader cursor ends where the last copy
left it. -/
def compactOp (s : KvStore) : KvStore :=
  let newLog := (s.index.map (fun kp => ((s.file.drop kp.2.pos).take kp.2.len))).flatten
  let rpos := s.index.foldl
    (fun _ kp => kp.2.pos + min kp.2.len (s.file.length - kp.2.pos)) 0
  { s with disk := some newLog, uncompacted := 0, readerPos := rpos }

/-- `KvStore::set` before the compaction check: seek to the end, write CRLF
then the serialized command, record the pointer spanning exactly the
appended bytes, and charge a superseded binding's length to `uncompacted`. -/
def preSet (s : KvStore) (k v : String) : KvStore :=
  let initialOffset := s.file.length
  let file' := s.file ++ setRecord k v
  let newOffset := file'.length
  let r := insertIdx k ⟨initialOffset, newOffset - initialOffset⟩ s.index
  let unc' := match r.1 with
    | some p => s.uncompacted + p.len
    | none => s.uncompacted
  { s with file := file', index := r.2, uncompacted := unc' }

/-- `KvStore::set`: append the record, then compact when the log size after
the append exceeds `COMPACT_BYTES`. -/
def setOp (s : KvStore) (k v : String) : KvStore :=
  let s1 := preSet s k v
  if s1.file.length > COMPACT_BYTES then compactOp s1 else s1

/-- `KvStore::get`: seek the reader to 0; on a hit, read exactly the
pointer's byte range and decode it; `Set` yields the value, `Remove` is a
`KeyNotFound` failure, an undecodable range a serialization failure.
Returned together with the state after the call (only the reader cursor can
move). -/
def getOp (s : KvStore) (k : String) : Except MyError (Option String) × KvStore :=
  match lookupIdx s.index k with
  | none => (.ok none, { s with readerPos := 0 })
  | some p =>
    let range := (s.file.drop p.pos).take p.len
    let s' := { s with readerPos := p.pos + min p.len (s.file.length - p.pos) }
    match decodeOne range with
    | some (.set _ v) => (.ok (some v), s')
    | some (.remove _) => (.error .keyNotFound, s')
    | none => (.error .serde, s')

/-- `KvStore::remove`: on a present key, drop it from the index and append
the `Remove` record followed by CRLF; on an absent key fail with
`KeyNotFound` having changed nothing. -/
def removeOp (s : KvStore) (k : String) : Except MyError Unit × KvStore :=
  match removeIdx k s.index with
  | (some _, index') =>
    (.ok (), { s with file := s.file ++ removeRecord k, index := index' })
  | (none, _) => (.error .keyNotFound, s)

/-- One step of `KvStore::read_file`'s replay loop, driven by fuel (the real
loop ends when only whitespace remains; each parsed value consumes at least
one character, so `log.length + 1` fuel always suffices). -/
def readFileGo : Nat → List Char → Nat → List (String × Pointer) → Nat →
    Except MyError (List (String × Pointer) × Nat)
  | 0, _, _, _, _ => .error .serde
  | fuel + 1, log, off, idx, unc =>
    let rest := log.drop off
    if onlyWs rest then .ok (idx, unc)
    else
      match parseCmd rest with
      | none => .error .serde
      | some (c, n) =>
        match c with
        | .set k _ =>
          let r := insertIdx k ⟨off, n⟩ idx
          readFileGo fuel log (off + n) r.2
            (match r.1 with | some p => unc + p.len | none => unc)
        | .remove k =>
          match removeIdx k idx with
          | (some _, idx') => readFileGo fuel log (off + n) idx' (unc + n)
          | (none, _) => readFileGo fuel log (off + n) idx unc

/-- `KvStore::open` on a path whose log file holds `content`: rebuild the
index and `uncompacted` by replaying the log (`read_file`). -/
def openOn (content : List Char) : Except MyError KvStore :=
  match readFileGo (content.length + 1) content 0 [] 0 with
  | .ok (idx, unc) =>
    .ok { file := content, disk := none, index := idx, uncompacted := unc, readerPos := 0 }
  | .error e => .error e

/-- The bytes a reopen would find at the log path. -/
def diskContents (s : KvStore) : List Char := s.disk.getD s.file

/-- Reopening the store directory after a run. -/
def reopenStore (s : KvStore) : Except MyError KvStore := openOn (diskContents s)

/-- One engine call, for replay sequences. -/
inductive Op where
  | set (k v : String)
  | remove (k : String)
deriving DecidableEq

/-- Apply one call to the state (discarding results, keeping the state). -/
def applyOp (s : KvStore) : Op → KvStore
  | .set k v => setOp s k v
  | .remove k => (removeOp s k).2

/-- Apply a sequence of calls in order. -/
def applyOps (s : KvStore) (ops : List Op) : KvStore := ops.foldl applyOp s

/-- The log produced by a sequence of `set` calls on an empty-file store. -/
def encLog : List (String × String) → List Char
  | [] => []
  | (k, v) :: rest => setRecord k v ++ encLog rest

/-- The index / `uncompacted` bookkeeping shared by replay and recovery for
a run of `Set` records starting at a given offset. -/
def recSteps : List (String × String) → Nat →
    List (String × Pointer) × Nat → List (String × Pointer) × Nat
  | [], _, acc => acc
  | (k, v) :: rest, off, acc =>
    let n := (setRecord k v).length
    let r := insertIdx k ⟨off, n⟩ acc.1
    recSteps rest (off + n)
      (r.2, match r.1 with | some p => acc.2 + p.len | none => acc.2)

/-- `p` addresses, inside `file`, a byte range that decodes to a `Set`
record carrying key `k`. -/
def pointsToSet (file : List Char) (k : String) (p : Pointer) : Prop :=
  p.pos + p.len ≤ file.length ∧
  ∃ v, decodeOne ((file.drop p.pos).take p.len) = some (.set k v)

/-- The engine invariant: the index's keys are strictly sorted (it models a
`BTreeMap`), and every `Pointer` it stores resolves, inside the log file the
engine's handles read, to a `Set` record with a matching key. -/
def invStore (s : KvStore) : Prop :=
  ((s.index.map Prod.fst).Pairwise (fun a b => strLt a b = true)) ∧
  ∀ k p, lookupIdx s.index k = some p → pointsToSet s.file k p

/-- Engine states reachable from a fresh store by engine calls (compaction
also occurs inside `set` whenever the post-append size exceeds the
threshold). -/
inductive Reachable : KvStore → Prop
  | init : Reachable openFresh
  | set {s : KvStore} (k v : String) : Reachable s → Reachable (setOp s k v)
  | get {s : KvStore} (k : String) : Reachable s → Reachable ((getOp s k).2)
  | rem {s : KvStore} (k : String) : Reachable s → Reachable ((removeOp s k).2)
  | compact {s : KvStore} : Reachable s → Reachable (compactOp s)

/-- A store after one small `set` (used as a concrete example state). -/
def c5state : KvStore := setOp openFresh "a" "1"

/-- A 1000-character value, long enough that appending its record pushes the
log past `COMPACT_BYTES`. -/
def bigVal : String := String.mk (List.replicate 1000 'x')

/-- The store before the compacting `set`: one live key `"a"`. -/
def c1pre : KvStore := setOp openFresh "a" "1"

/-- The store after `set "a" bigVal` has appended (offset 33, length 1032)
and then compacted. -/
def c1post : KvStore := setOp c1pre "a" bigVal

/-- A hand-built state whose index entry for `"a"` points at a `Remove`
record (the corruption case `get` must reject). -/
def badState : KvStore :=
  { file := removeRecord "a", disk := none,
    index := [("a", ⟨0, 22⟩)], uncompacted := 0, readerPos := 0 }

/-- `set` then `remove` of the same key: the replay/recovery counterexample. -/
def c3ops : List Op := [.set "a" "1", .remove "a"]

/-! ## Parser / serializer roundtrip -/

theorem dropLit_pre (l r : List Char) : dropLit l (l ++ r) = some r := by
  induction l with
  | nil => rfl
  | cons c cs ih => simp [dropLit, ih]

theorem parseStringBody_quote (r : List Char) :
    parseStringBody ('"' :: r) = some ([], 1) := by
  rw [parseStringBody.eq_def]
  simp

theorem parseStringBody_escaped (d : Char) (r : List Char)
    (h : d = '\\' ∨ d = '"') :
    parseStringBody ('\\' :: d :: r)
      = match parseStringBody r with
        | some (s, n) => some (d :: s, n + 2)
        | none => none := by
  rw [parseStringBody.eq_def]
  have hd : (decide (d = '\\') || decide (d = '"')) = true := by
    rcases h with h | h <;> simp [h]
  simp [hd]

theorem parseStringBody_plain (c : Char) (r : List Char)
    (h1 : ¬c = '"') (h2 : ¬c = '\\') :
    parseStringBody (c :: r)
      = match parseStringBody r with
        | some (s, n) => some (c :: s, n + 1)
        | none => none := by
  rw [parseStringBody.eq_def]
  simp [h1, h2]

theorem parseStringBody_esc (cs : List Char) (r : List Char) :
    parseStringBody (escList cs ++ '"' :: r) = some (cs, (escList cs).length + 1) := by
  induction cs with
  | nil =>
    have : escList [] ++ '"' :: r = '"' :: r := rfl
    rw [this, parseStringBody_quote]
    rfl
  | cons c cs ih =>
    have hcons : escList (c :: cs) = escapeChar c ++ escList cs := by
      simp [escList]
    by_cases h1 : c = '\\'
    · subst h1
      have he : escList ('\\' :: cs) ++ '"' :: r
          = '\\' :: '\\' :: (escList cs ++ '"' :: r) := by
        simp [hcons, escapeChar]
      rw [he, parseStringBody_escaped _ _ (Or.inl rfl), ih]
      simp [hcons, escapeChar]
    · by_cases h2 : c = '"'
      · subst h2
        have he : escList ('"' :: cs) ++ '"' :: r
            = '\\' :: '"' :: (escList cs ++ '"' :: r) := by
          simp [hcons, escapeChar]
        rw [he, parseStringBody_escaped _ _ (Or.inr rfl), ih]
        simp [hcons, escapeChar]
      · have he : escList (c :: cs) ++ '"' :: r = c :: (escList cs ++ '"' :: r) := by
          simp [hcons, escapeChar, h1, h2]
        rw [he, parseStringBody_plain _ _ h2 h1, ih]
        simp [hcons, escapeChar, h1, h2]

theorem drop_esc (cs t : List Char) :
    (escList cs ++ '"' :: t).drop ((escList cs).length + 1) = t := by
  have : escList cs ++ '"' :: t = (escList cs ++ ['"']) ++ t := by simp
  rw [this, List.drop_left' (by simp)]

theorem parseSet_encodeSet (k v : String) (r : List Char) :
    parseSet (encodeCmd (.set k v) ++ r)
      = some (.set k v, (encodeCmd (.set k v)).length) := by
  have assoc : encodeCmd (.set k v) ++ r
      = setOpen ++ (escList k.data ++ '"' :: (midRest ++ (escList v.data ++ '"' :: (braceClose ++ r)))) := by
    simp [encodeCmd, closeStr, braceClose]
  rw [parseSet, assoc]
  simp only [dropLit_pre, parseStringBody_esc, drop_esc]
  simp [encodeCmd, setOpen, midRest, closeStr, braceClose]
  omega

theorem parseRemove_encodeRemove (k : String) (r : List Char) :
    parseRemove (encodeCmd (.remove k) ++ r)
      = some (.remove k, (encodeCmd (.remove k)).length) := by
  have assoc : encodeCmd (.remove k) ++ r
      = removeOpen ++ (escList k.data ++ '"' :: (braceClose ++ r)) := by
    simp [encodeCmd, closeStr, braceClose]
  rw [parseRemove, assoc]
  simp only [dropLit_pre, parseStringBody_esc, drop_esc]
  simp [encodeCmd, removeOpen, closeStr, braceClose]
  omega

theorem parseSet_encodeRemove (k : String) (r : List Char) :
    parseSet (encodeCmd (.remove k) ++ r) = none := by
  simp [encodeCmd, removeOpen, parseSet, setOpen, dropLit]

theorem parseCmd_setRecord (k v : String) (r : List Char) :
    parseCmd (setRecord k v ++ r) = some (.set k v, (setRecord k v).length) := by
  have hw : countWs (setRecord k v ++ r) = 2 := by
    simp [setRecord, crlf, encodeCmd, setOpen, countWs, isWsChar]
  have hd : (setRecord k v ++ r).drop 2 = encodeCmd (.set k v) ++ r := by
    simp [setRecord, crlf]
  rw [parseCmd]
  simp only [hw, hd, parseSet_encodeSet]
  simp [setRecord, crlf]
  omega

theorem parseCmd_removeRecord (k : String) (r : List Char) :
    parseCmd (encodeCmd (.remove k) ++ r)
      = some (.remove k, (encodeCmd (.remove k)).length) := by
  have hw : countWs (encodeCmd (.remove k) ++ r) = 0 := by
    simp [encodeCmd, removeOpen, countWs, isWsChar]
  rw [parseCmd]
  simp only [hw, List.drop_zero, parseSet_encodeRemove, parseRemove_encodeRemove]
  simp

theorem decodeOne_setRecord (k v : String) :
    decodeOne (setRecord k v) = some (.set k v) := by
  have h := parseCmd_setRecord k v []
  rw [List.append_nil] at h
  rw [decodeOne, h]
  simp [onlyWs]

/-! ## Index (association list) lemmas -/

theorem char_eq_of_toNat_eq (a b : Char) (h : a.toNat = b.toNat) : a = b :=
  Char.eq_of_val_eq (UInt32.eq_of_toBitVec_eq (BitVec.eq_of_toNat_eq h))

theorem string_eq_of_data_eq {a b : String} (h : a.data = b.data) : a = b := by
  cases a
  cases b
  simp only at h
  rw [h]

theorem ltB_irrefl (l : List Char) : ltB l l = false := by
  induction l with
  | nil => rfl
  | cons a as ih => simp [ltB, ih]

theorem strLt_irrefl (a : String) : strLt a a = false := ltB_irrefl a.data

theorem ltB_trans {a b c : List Char} (h1 : ltB a b = true) (h2 : ltB b c = true) :
    ltB a c = true := by
  induction a generalizing b c with
  | nil =>
    cases c with
    | nil =>
      cases b with
      | nil => simpa using h1
      | cons y ys => simp [ltB] at h2
    | cons z zs => rfl
  | cons x xs ih =>
    cases b with
    | nil => simp [ltB] at h1
    | cons y ys =>
      cases c with
      | nil => simp [ltB] at h2
      | cons z zs =>
        rcases Nat.lt_trichotomy x.toNat y.toNat with hxy | hxy | hxy
        · rcases Nat.lt_trichotomy y.toNat z.toNat with hyz | hyz | hyz
          · simp only [ltB]
            simp [show x.toNat < z.toNat from by omega]
          · simp only [ltB]
            simp [show x.toNat < z.toNat from by omega]
          · simp only [ltB] at h2
            simp [show ¬y.toNat < z.toNat from by omega, hyz] at h2
        · rcases Nat.lt_trichotomy y.toNat z.toNat with hyz | hyz | hyz
          · simp only [ltB]
            simp [show x.toNat < z.toNat from by omega]
          · simp only [ltB] at h1 h2 ⊢
            simp [show ¬x.toNat < y.toNat from by omega,
              show ¬y.toNat < x.toNat from by omega] at h1
            simp [show ¬y.toNat < z.toNat from by omega,
              show ¬z.toNat < y.toNat from by omega] at h2
            simp [show ¬x.toNat < z.toNat from by omega,
              show ¬z.toNat < x.toNat from by omega]
            exact ih h1 h2
          · simp only [ltB] at h2
            simp [show ¬y.toNat < z.toNat from by omega, hyz] at h2
        · simp only [ltB] at h1
          simp [show ¬x.toNat < y.toNat from by omega, hxy] at h1

theorem strLt_trans {a b c : String} (h1 : strLt a b = true) (h2 : strLt b c = true) :
    strLt a c = true := ltB_trans h1 h2

theorem ltB_total_ne {a b : List Char} (h : ltB a b = false) (hne : a ≠ b) :
    ltB b a = true := by
  induction a generalizing b with
  | nil =>
    cases b with
    | nil => exact absurd rfl hne
    | cons y ys => simp [ltB] at h
  | cons x xs ih =>
    cases b with
    | nil => rfl
    | cons y ys =>
      simp only [ltB] at h ⊢
      rcases Nat.lt_trichotomy x.toNat y.toNat with hxy | hxy | hxy
      · simp [hxy] at h
      · have hx : ¬x.toNat < y.toNat := by omega
        have hy : ¬y.toNat < x.toNat := by omega
        simp [hx, hy] at h ⊢
        refine ih h fun he => hne ?_
        rw [char_eq_of_toNat_eq x y hxy, he]
      · simp [hxy]

theorem strLt_total_ne {a b : String} (h : strLt a b = false) (hne : a ≠ b) :
    strLt b a = true :=
  ltB_total_ne h fun he => hne (string_eq_of_data_eq he)

theorem strLt_ne {a b : String} (h : strLt a b = true) : a ≠ b := by
  intro he
  subst he
  rw [strLt_irrefl] at h
  cases h

theorem lookupIdx_insert_self (k : String) (p : Pointer) (l : List (String × Pointer)) :
    lookupIdx (insertIdx k p l).2 k = some p := by
  induction l with
  | nil => simp [insertIdx, lookupIdx]
  | cons hd tl ih =>
    by_cases h1 : strLt k hd.1 = true
    · simp [insertIdx, h1, lookupIdx]
    · by_cases h2 : k = hd.1
      · simp [insertIdx, h1, h2, lookupIdx, strLt_irrefl]
      · simp [insertIdx, h1, h2, lookupIdx, ih]

theorem lookupIdx_insert_ne (k k' : String) (p : Pointer) (l : List (String × Pointer))
    (h : k' ≠ k) : lookupIdx (insertIdx k p l).2 k' = lookupIdx l k' := by
  induction l with
  | nil => simp [insertIdx, lookupIdx, h]
  | cons hd tl ih =>
    by_cases h1 : strLt k hd.1 = true
    · simp [insertIdx, h1, lookupIdx, h]
    · by_cases h2 : k = hd.1
      · subst h2
        simp [insertIdx, h1, lookupIdx, h]
      · by_cases h3 : k' = hd.1
        · simp [insertIdx, h1, h2, lookupIdx, h3]
        · simp [insertIdx, h1, h2, lookupIdx, h3, ih]

theorem removeIdx_fst (k : String) (l : List (String × Pointer)) :
    (removeIdx k l).1 = lookupIdx l k := by
  induction l with
  | nil => simp [removeIdx, lookupIdx]
  | cons hd tl ih =>
    by_cases h : k = hd.1
    · simp [removeIdx, lookupIdx, h]
    · simp [removeIdx, lookupIdx, h, ih]

theorem removeIdx_of_lookup_none (k : String) (l : List (String × Pointer))
    (h : lookupIdx l k = none) : removeIdx k l = (none, l) := by
  induction l with
  | nil => simp [removeIdx]
  | cons hd tl ih =>
    by_cases h1 : k = hd.1
    · simp [lookupIdx, h1] at h
    · simp [lookupIdx, h1] at h
      simp [removeIdx, h1, ih h]

theorem lookupIdx_removeIdx_ne (k k' : String) (l : List (String × Pointer))
    (h : k' ≠ k) : lookupIdx (removeIdx k l).2 k' = lookupIdx l k' := by
  induction l with
  | nil => simp [removeIdx]
  | cons hd tl ih =>
    by_cases h1 : k = hd.1
    · subst h1
      simp [removeIdx, lookupIdx, h]
    · by_cases h2 : k' = hd.1
      · simp [removeIdx, lookupIdx, h1, h2]
      · simp [removeIdx, lookupIdx, h1, h2, ih]

theorem lookupIdx_eq_none_of_not_mem (k : String) (l : List (String × Pointer))
    (h : k ∉ l.map Prod.fst) : lookupIdx l k = none := by
  induction l with
  | nil => rfl
  | cons hd tl ih =>
    rw [List.map_cons] at h
    have h1 : ¬k = hd.1 := fun e => h (e ▸ List.mem_cons_self _ _)
    have h2 : k ∉ tl.map Prod.fst := fun m => h (List.mem_cons_of_mem _ m)
    simp [lookupIdx, h1, ih h2]

theorem lookupIdx_removeIdx_self (k : String) (l : List (String × Pointer))
    (h : (l.map Prod.fst).Nodup) : lookupIdx (removeIdx k l).2 k = none := by
  induction l with
  | nil => rfl
  | cons hd tl ih =>
    rw [List.map_cons, List.nodup_cons] at h
    by_cases h1 : k = hd.1
    · subst h1
      simp [removeIdx, lookupIdx_eq_none_of_not_mem _ _ h.1]
    · simp [removeIdx, h1, lookupIdx, h1, ih h.2]

theorem removeIdx_sublist (k : String) (l : List (String × Pointer)) :
    (removeIdx k l).2.Sublist l := by
  induction l with
  | nil => simp [removeIdx]
  | cons hd tl ih =>
    by_cases h : k = hd.1
    · simp [removeIdx, h]
    · simp only [removeIdx, h, if_false]
      exact ih.cons₂ hd

theorem insertIdx_cons_lt (k k' : String) (p p' : Pointer) (l : List (String × Pointer))
    (h : strLt k k' = true) :
    insertIdx k p ((k', p') :: l) = (none, (k, p) :: (k', p') :: l) := by
  simp [insertIdx, h]

theorem insertIdx_cons_eq (k k' : String) (p p' : Pointer) (l : List (String × Pointer))
    (h : k = k') :
    insertIdx k p ((k', p') :: l) = (some p', (k, p) :: l) := by
  subst h
  simp [insertIdx, strLt_irrefl]

theorem insertIdx_cons_gt (k k' : String) (p p' : Pointer) (l : List (String × Pointer))
    (h1 : ¬strLt k k' = true) (h2 : ¬k = k') :
    insertIdx k p ((k', p') :: l)
      = ((insertIdx k p l).1, (k', p') :: (insertIdx k p l).2) := by
  simp [insertIdx, h1, h2]

theorem mem_keys_insertIdx (k x : String) (p : Pointer) (l : List (String × Pointer))
    (h : x ∈ (insertIdx k p l).2.map Prod.fst) : x = k ∨ x ∈ l.map Prod.fst := by
  induction l with
  | nil =>
    rw [show (insertIdx k p []).2 = [(k, p)] from rfl, List.map_cons] at h
    rcases List.mem_cons.mp h with h | h
    · exact Or.inl h
    · exact absurd h (List.not_mem_nil x)
  | cons hd tl ih =>
    obtain ⟨k', p'⟩ := hd
    by_cases h1 : strLt k k' = true
    · rw [insertIdx_cons_lt k k' p p' tl h1] at h
      simp only [List.map_cons, List.mem_cons] at h
      rcases h with h | h | h
      · exact Or.inl h
      · exact Or.inr (by rw [List.map_cons]; exact List.mem_cons.mpr (Or.inl h))
      · exact Or.inr (by rw [List.map_cons]; exact List.mem_cons.mpr (Or.inr h))
    · by_cases h2 : k = k'
      · rw [insertIdx_cons_eq k k' p p' tl h2] at h
        simp only [List.map_cons, List.mem_cons] at h
        rcases h with h | h
        · exact Or.inl h
        · exact Or.inr (by rw [List.map_cons]; exact List.mem_cons.mpr (Or.inr h))
      · rw [insertIdx_cons_gt k k' p p' tl h1 h2] at h
        simp only [List.map_cons, List.mem_cons] at h
        rcases h with h | h
        · exact Or.inr (by rw [List.map_cons]; exact List.mem_cons.mpr (Or.inl h))
        · rcases ih h with h | h
          · exact Or.inl h
          · exact Or.inr (by rw [List.map_cons]; exact List.mem_cons.mpr (Or.inr h))

/-- Insertion keeps the index's keys strictly sorted (the `BTreeMap` order). -/
theorem pairwise_insertIdx (k : String) (p : Pointer) (l : List (String × Pointer))
    (h : (l.map Prod.fst).Pairwise (fun a b => strLt a b = true)) :
    ((insertIdx k p l).2.map Prod.fst).Pairwise (fun a b => strLt a b = true) := by
  induction l with
  | nil => simp [insertIdx]
  | cons hd tl ih =>
    obtain ⟨k', p'⟩ := hd
    rw [List.map_cons, List.pairwise_cons] at h
    by_cases h1 : strLt k k' = true
    · rw [insertIdx_cons_lt k k' p p' tl h1]
      rw [List.map_cons, List.pairwise_cons]
      constructor
      · intro x hx
        rw [List.map_cons] at hx
        rcases List.mem_cons.mp hx with hx | hx
        · exact hx ▸ h1
        · exact strLt_trans h1 (h.1 x hx)
      · rw [List.map_cons, List.pairwise_cons]
        exact h
    · by_cases h2 : k = k'
      · subst h2
        rw [insertIdx_cons_eq k k p p' tl rfl]
        rw [List.map_cons, List.pairwise_cons]
        exact h
      · have h3 : strLt k' k = true :=
          strLt_total_ne (by simpa using h1) h2
        rw [insertIdx_cons_gt k k' p p' tl h1 h2]
        rw [List.map_cons, List.pairwise_cons]
        constructor
        · intro x hx
          rcases mem_keys_insertIdx k x p tl hx with hx | hx
          · exact hx ▸ h3
          · exact h.1 x hx
        · exact ih h.2

/-- A byte range lying inside `L` is unaffected by appending `R`. -/
theorem range_stable (L R : List Char) (pos len : Nat) (h : pos + len ≤ L.length) :
    ((L ++ R).drop pos).take len = (L.drop pos).take len := by
  rw [List.drop_append_of_le_length (by omega)]
  rw [List.take_append_of_le_length (by simp; omega)]

/-! ## State-level lemmas about the engine operations -/

theorem preSet_eq (s : KvStore) (k v : String) :
    preSet s k v = { s with
      file := s.file ++ setRecord k v,
      index := (insertIdx k ⟨s.file.length, (setRecord k v).length⟩ s.index).2,
      uncompacted :=
        match (insertIdx k ⟨s.file.length, (setRecord k v).length⟩ s.index).1 with
        | some p => s.uncompacted + p.len
        | none => s.uncompacted } := by
  unfold preSet
  simp only [List.length_append, Nat.add_sub_cancel_left]

theorem removeOp_absent (s : KvStore) (k : String)
    (h : lookupIdx s.index k = none) :
    removeOp s k = (.error .keyNotFound, s) := by
  simp [removeOp, removeIdx_of_lookup_none k s.index h]

theorem removeOp_present (s : KvStore) (k : String) (p : Pointer)
    (h : lookupIdx s.index k = some p) :
    removeOp s k = (.ok (),
      { s with file := s.file ++ removeRecord k, index := (removeIdx k s.index).2 }) := by
  rcases hr : removeIdx k s.index with ⟨o, l'⟩
  have ho : o = some p := by
    have hfst := removeIdx_fst k s.index
    rw [hr, h] at hfst
    exact hfst
  subst ho
  simp [removeOp, hr]

theorem getOp_state (s : KvStore) (k : String) :
    (getOp s k).2.file = s.file ∧ (getOp s k).2.disk = s.disk ∧
    (getOp s k).2.index = s.index ∧ (getOp s k).2.uncompacted = s.uncompacted := by
  cases h : lookupIdx s.index k with
  | none => simp [getOp, h]
  | some p =>
    cases hd : decodeOne ((s.file.drop p.pos).take p.len) with
    | none => simp [getOp, h, hd]
    | some c =>
      cases c with
      | set k' v => simp [getOp, h, hd]
      | remove k' => simp [getOp, h, hd]

/-- The value `get` returns depends only on the index and the handle file. -/
theorem getOp_fst_congr (s t : KvStore) (k : String)
    (hi : t.index = s.index) (hf : t.file = s.file) :
    (getOp t k).1 = (getOp s k).1 := by
  cases h : lookupIdx s.index k with
  | none => simp [getOp, h, hi, hf]
  | some p =>
    cases hd : decodeOne ((s.file.drop p.pos).take p.len) with
    | none => simp [getOp, h, hd, hi, hf]
    | some c =>
      cases c with
      | set k' v => simp [getOp, h, hd, hi, hf]
      | remove k' => simp [getOp, h, hd, hi, hf]

theorem getOp_after_preSet (s : KvStore) (k v : String) :
    (getOp (preSet s k v) k).1 = .ok (some v) := by
  have hidx : lookupIdx (preSet s k v).index k
      = some ⟨s.file.length, (setRecord k v).length⟩ := by
    rw [preSet_eq]
    exact lookupIdx_insert_self _ _ _
  have hrange : (((preSet s k v).file.drop s.file.length).take (setRecord k v).length)
      = setRecord k v := by
    rw [preSet_eq]
    simp [List.drop_left]
  simp [getOp, hidx, hrange, decodeOne_setRecord]

/-! ## The engine invariant (claim C4) -/

theorem invStore_congr (s t : KvStore) (hi : t.index = s.index)
    (hf : t.file = s.file) (h : invStore s) : invStore t := by
  rw [invStore, hi, hf]
  exact h

theorem invStore_openFresh : invStore openFresh := by
  constructor
  · simp [openFresh]
  · intro k p hk
    simp [openFresh, lookupIdx] at hk

theorem pointsToSet_append (L R : List Char) (k : String) (p : Pointer)
    (h : pointsToSet L k p) : pointsToSet (L ++ R) k p := by
  obtain ⟨hb, v, hv⟩ := h
  refine ⟨by simp; omega, v, ?_⟩
  rw [range_stable L R p.pos p.len hb]
  exact hv

theorem invStore_preSet (s : KvStore) (k v : String) (h : invStore s) :
    invStore (preSet s k v) := by
  rw [preSet_eq]
  constructor
  · exact pairwise_insertIdx _ _ _ h.1
  · intro k' p' hk'
    simp only at hk' ⊢
    by_cases he : k' = k
    · subst he
      rw [lookupIdx_insert_self] at hk'
      cases hk'
      refine ⟨by simp, v, ?_⟩
      rw [List.drop_left, List.take_length]
      exact decodeOne_setRecord k' v
    · rw [lookupIdx_insert_ne _ _ _ _ he] at hk'
      exact pointsToSet_append _ _ _ _ (h.2 k' p' hk')

theorem invStore_compactOp (s : KvStore) (h : invStore s) :
    invStore (compactOp s) :=
  invStore_congr s _ rfl rfl h

theorem invStore_setOp (s : KvStore) (k v : String) (h : invStore s) :
    invStore (setOp s k v) := by
  rw [setOp]
  by_cases hc : (preSet s k v).file.length > COMPACT_BYTES
  · rw [if_pos hc]
    exact invStore_compactOp _ (invStore_preSet s k v h)
  · rw [if_neg hc]
    exact invStore_preSet s k v h

theorem invStore_getOp (s : KvStore) (k : String) (h : invStore s) :
    invStore ((getOp s k).2) :=
  invStore_congr s _ (getOp_state s k).2.2.1 (getOp_state s k).1 h

theorem invStore_removeOp (s : KvStore) (k : String) (h : invStore s) :
    invStore ((removeOp s k).2) := by
  cases hl : lookupIdx s.index k with
  | none =>
    rw [removeOp_absent s k hl]
    exact h
  | some p =>
    rw [removeOp_present s k p hl]
    constructor
    · exact h.1.sublist ((removeIdx_sublist k s.index).map Prod.fst)
    · intro k' p' hk'
      simp only at hk' ⊢
      by_cases he : k' = k
      · subst he
        rw [lookupIdx_removeIdx_self _ _ (h.1.imp fun hab => strLt_ne hab)] at hk'
        cases hk'
      · rw [lookupIdx_removeIdx_ne _ _ _ he] at hk'
        exact pointsToSet_append _ _ _ _ (h.2 k' p' hk')

/-! ## Recovery versus replay (claim C3) -/

theorem length_le_encLog (kvs : List (String × String)) :
    kvs.length ≤ (encLog kvs).length := by
  induction kvs with
  | nil => simp [encLog]
  | cons kv rest ih =>
    obtain ⟨k, v⟩ := kv
    have : 1 ≤ (setRecord k v).length := by simp [setRecord, crlf]
    simp only [encLog, List.length_append, List.length_cons]
    omega

theorem onlyWs_setRecord_append (k v : String) (x : List Char) :
    onlyWs (setRecord k v ++ x) = false := by
  have hso : setOpen.all isWsChar = false := by decide
  simp [onlyWs, setRecord, encodeCmd, crlf, List.all_append, hso, isWsChar]

/-- `read_file`'s replay loop over a log that is a back-to-back run of `Set`
records performs exactly the `recSteps` bookkeeping. -/
theorem readFileGo_encLog (kvs : List (String × String)) :
    ∀ (pre : List Char) (idx : List (String × Pointer)) (unc fuel : Nat),
      kvs.length + 1 ≤ fuel →
      readFileGo fuel (pre ++ encLog kvs) pre.length idx unc
        = .ok (recSteps kvs pre.length (idx, unc)) := by
  induction kvs with
  | nil =>
    intro pre idx unc fuel hf
    obtain ⟨f, rfl⟩ : ∃ f, fuel = f + 1 := ⟨fuel - 1, by omega⟩
    rw [show encLog [] = [] from rfl, List.append_nil]
    simp [readFileGo, List.drop_length, onlyWs, recSteps]
  | cons kv rest ih =>
    intro pre idx unc fuel hf
    obtain ⟨f, rfl⟩ : ∃ f, fuel = f + 1 := ⟨fuel - 1, by omega⟩
    obtain ⟨k, v⟩ := kv
    have hdrop : (pre ++ encLog ((k, v) :: rest)).drop pre.length
        = setRecord k v ++ encLog rest := by
      rw [show encLog ((k, v) :: rest) = setRecord k v ++ encLog rest from rfl,
        List.drop_left]
    have hassoc : pre ++ encLog ((k, v) :: rest)
        = (pre ++ setRecord k v) ++ encLog rest := by
      simp [encLog]
    have hoff : pre.length + (setRecord k v).length
        = (pre ++ setRecord k v).length := by simp
    rw [readFileGo.eq_def]
    simp only [hdrop]
    rw [onlyWs_setRecord_append k v (encLog rest)]
    simp only [Bool.false_eq_true, if_false]
    rw [parseCmd_setRecord k v (encLog rest)]
    dsimp only
    rw [hassoc, hoff, ih (pre ++ setRecord k v) _ _ f (by simp only [List.length_cons] at hf; omega)]
    simp only [recSteps, hoff]

/-- Replaying a sequence of `set` calls that never reaches the compaction
threshold appends exactly the corresponding records and performs the
`recSteps` bookkeeping in memory. -/
theorem applyOps_sets (kvs : List (String × String)) :
    ∀ s : KvStore, s.file.length + (encLog kvs).length ≤ COMPACT_BYTES →
      applyOps s (kvs.map (fun kv => Op.set kv.1 kv.2))
        = { s with
            file := (s.file ++ encLog kvs),
            index := (recSteps kvs s.file.length (s.index, s.uncompacted)).1,
            uncompacted := (recSteps kvs s.file.length (s.index, s.uncompacted)).2 } := by
  induction kvs with
  | nil =>
    intro s h
    simp [applyOps, encLog, recSteps]
  | cons kv rest ih =>
    intro s h
    obtain ⟨k, v⟩ := kv
    have hrec : encLog ((k, v) :: rest) = setRecord k v ++ encLog rest := rfl
    rw [hrec, List.length_append] at h
    have hsize : ¬ (preSet s k v).file.length > COMPACT_BYTES := by
      rw [preSet_eq]
      simp only [List.length_append]
      omega
    have hset : setOp s k v = preSet s k v := by rw [setOp, if_neg hsize]
    have hpre := ih (preSet s k v) (by rw [preSet_eq]; simp only [List.length_append]; omega)
    simp only [List.map_cons, applyOps, List.foldl_cons] at hpre ⊢
    rw [show applyOp s (Op.set k v) = setOp s k v from rfl, hset, hpre, preSet_eq]
    simp only [recSteps, hrec]
    simp [List.append_assoc]

theorem removeOp_unc_disk (s : KvStore) (k : String) :
    (removeOp s k).2.uncompacted = s.uncompacted ∧ (removeOp s k).2.disk = s.disk := by
  cases hl : lookupIdx s.index k with
  | none =>
    rw [removeOp_absent s k hl]
    exact ⟨rfl, rfl⟩
  | some p =>
    rw [removeOp_present s k p hl]
    exact ⟨rfl, rfl⟩

/-! ## The claims -/

/-- C1 (corrected): compaction, triggered inside `set` when the post-append
size exceeds the threshold, does **not** update the index pointers to the
new rewritten log: the key live just before compaction keeps pointer
(33, 1032), and that byte range inside the rewritten log (the path file)
does not decode to any record at all. -/
theorem c1_counterexample :
    lookupIdx c1post.index "a" = some ⟨33, 1032⟩ ∧
    c1post.disk = some (diskContents c1post) ∧
    decodeOne (((diskContents c1post).drop 33).take 1032) = none := by
  refine ⟨rfl, rfl, rfl⟩

/-- C1 (amended): when the append inside `set` pushes the log size over the
threshold, `set` ends by running compaction; compaction rewrites the file at
the log path and resets `uncompacted` to 0, but leaves the index, the file
the open handles read, and every `get` result unchanged — the pointers keep
resolving in the old log contents the handles still reference, not in the
rewritten log. -/
theorem c1_compaction_preserves_reads (s : KvStore) (k v : String)
    (h : COMPACT_BYTES < (preSet s k v).file.length) :
    setOp s k v = compactOp (preSet s k v) ∧
    (compactOp (preSet s k v)).index = (preSet s k v).index ∧
    (compactOp (preSet s k v)).file = (preSet s k v).file ∧
    (compactOp (preSet s k v)).uncompacted = 0 ∧
    (∀ k', (getOp (compactOp (preSet s k v)) k').1 = (getOp (preSet s k v) k').1) := by
  refine ⟨by rw [setOp, if_pos (by omega)], rfl, rfl, rfl,
    fun k' => getOp_fst_congr _ _ k' rfl rfl⟩

theorem c1_witness :
    COMPACT_BYTES < (preSet c1pre "a" bigVal).file.length ∧
    (getOp (setOp c1pre "a" bigVal) "a").1 = (getOp (preSet c1pre "a" bigVal) "a").1 := by
  refine ⟨by decide, ?_⟩
  have h := c1_compaction_preserves_reads c1pre "a" bigVal (by decide)
  rw [h.1]
  exact h.2.2.2.2 "a"

/-- C2: in every engine state, `set k v` followed by `get k` returns
`Ok (Some v)`, also when the `set` triggers compaction. -/
theorem c2_set_then_get (s : KvStore) (k v : String) :
    (getOp (setOp s k v) k).1 = .ok (some v) := by
  rw [setOp]
  by_cases hc : (preSet s k v).file.length > COMPACT_BYTES
  · rw [if_pos hc, getOp_fst_congr (preSet s k v) (compactOp (preSet s k v)) k rfl rfl]
    exact getOp_after_preSet s k v
  · rw [if_neg hc]
    exact getOp_after_preSet s k v

/-- C3 (corrected): recovery is **not** an exact reconstruction once a
`remove` is involved: after `set "a" "1"; remove "a"` the in-memory
`uncompacted` is 0 (the engine's `remove` never charges the tombstone),
while reopening recomputes `uncompacted = 22` (recovery does charge the
`Remove` record's length). -/
theorem c3_counterexample :
    (applyOps openFresh c3ops).uncompacted = 0 ∧
    (reopenStore (applyOps openFresh c3ops)).map KvStore.uncompacted = .ok 22 ∧
    (reopenStore (applyOps openFresh c3ops)).map KvStore.uncompacted
      ≠ .ok ((applyOps openFresh c3ops).uncompacted) := by
  refine ⟨by decide, by decide, by decide⟩

/-- C3 (amended): for sequences of `set` calls alone, whose total log size
stays within the compaction threshold, reopening the store returns exactly
the replayed engine state (same index, same `uncompacted`, same file). -/
theorem c3_recovery_matches_replay (kvs : List (String × String))
    (h : (encLog kvs).length ≤ COMPACT_BYTES) :
    reopenStore (applyOps openFresh (kvs.map (fun kv => Op.set kv.1 kv.2)))
      = .ok (applyOps openFresh (kvs.map (fun kv => Op.set kv.1 kv.2))) := by
  have hB := applyOps_sets kvs openFresh (by simp [openFresh]; omega)
  have hf : kvs.length + 1 ≤ (encLog kvs).length + 1 := by
    have := length_le_encLog kvs
    omega
  have hA := readFileGo_encLog kvs [] [] 0 ((encLog kvs).length + 1) hf
  simp only [List.nil_append, List.length_nil] at hA
  rw [hB]
  simp [reopenStore, diskContents, openFresh, openOn, hA]

theorem c3_witness :
    (encLog [("a", "1"), ("b", "2")]).length ≤ COMPACT_BYTES ∧
    reopenStore (applyOps openFresh ([("a", "1"), ("b", "2")].map (fun kv => Op.set kv.1 kv.2)))
      = .ok (applyOps openFresh ([("a", "1"), ("b", "2")].map (fun kv => Op.set kv.1 kv.2))) :=
  ⟨by decide, c3_recovery_matches_replay _ (by decide)⟩

/-- C4: in every reachable engine state the index's keys are sorted and
every stored pointer resolves, inside the log file the engine's handles
read, to a `Set` record whose key matches the index key; the invariant is
preserved by `set`, `get`, `remove` and compaction. -/
theorem c4_index_invariant (s : KvStore) (h : Reachable s) : invStore s := by
  induction h with
  | init => exact invStore_openFresh
  | set k v _ ih => exact invStore_setOp _ k v ih
  | get k _ ih => exact invStore_getOp _ k ih
  | rem k _ ih => exact invStore_removeOp _ k ih
  | compact _ ih => exact invStore_compactOp _ ih

theorem c4_witness :
    Reachable (setOp openFresh "a" "1") ∧ invStore (setOp openFresh "a" "1") :=
  ⟨Reachable.set "a" "1" Reachable.init,
   c4_index_invariant _ (Reachable.set "a" "1" Reachable.init)⟩

/-- C5 (corrected): `remove` on a present key appends the tombstone and
drops the key, but leaves `uncompacted` unchanged - it does **not** add the
`Remove` record's length (24 for key `"a"`). -/
theorem c5_counterexample :
    lookupIdx c5state.index "a" = some ⟨0, 33⟩ ∧
    (removeOp c5state "a").2.uncompacted = 0 ∧
    c5state.uncompacted + (removeRecord "a").length = 24 ∧
    (removeOp c5state "a").2.uncompacted
      ≠ c5state.uncompacted + (removeRecord "a").length := by
  refine ⟨by decide, by decide, by decide, by decide⟩

/-- C5 (amended): for a key present in the (duplicate-free) index, `remove`
succeeds, appends exactly the serialized `Remove` record followed by CRLF,
removes the key from the index (other keys untouched), and leaves
`uncompacted` (and the path file) unchanged. -/
theorem c5_remove_present (s : KvStore) (k : String) (p : Pointer)
    (hnd : (s.index.map Prod.fst).Nodup)
    (h : lookupIdx s.index k = some p) :
    (removeOp s k).1 = .ok () ∧
    (removeOp s k).2.file = s.file ++ removeRecord k ∧
    lookupIdx (removeOp s k).2.index k = none ∧
    (∀ k', k' ≠ k → lookupIdx (removeOp s k).2.index k' = lookupIdx s.index k') ∧
    (removeOp s k).2.uncompacted = s.uncompacted ∧
    (removeOp s k).2.disk = s.disk := by
  rw [removeOp_present s k p h]
  refine ⟨rfl, rfl, ?_, ?_, rfl, rfl⟩
  · exact lookupIdx_removeIdx_self k s.index hnd
  · intro k' hk'
    exact lookupIdx_removeIdx_ne k k' s.index hk'

theorem c5_witness :
    (c5state.index.map Prod.fst).Nodup ∧
    lookupIdx c5state.index "a" = some ⟨0, 33⟩ ∧
    (removeOp c5state "a").1 = .ok () :=
  ⟨by decide, by decide,
   (c5_remove_present c5state "a" ⟨0, 33⟩ (by decide) (by decide)).1⟩

/-- C6: `remove` on an absent key fails with `KeyNotFound` and returns the
engine state entirely unchanged (nothing is appended, the index is intact). -/
theorem c6_remove_absent (s : KvStore) (k : String)
    (h : lookupIdx s.index k = none) :
    removeOp s k = (.error .keyNotFound, s) :=
  removeOp_absent s k h

theorem c6_witness :
    lookupIdx openFresh.index "missing" = none ∧
    removeOp openFresh "missing" = (.error .keyNotFound, openFresh) :=
  ⟨rfl, c6_remove_absent openFresh "missing" rfl⟩

/-- C7: `get` returns `Ok None` exactly when the key is absent from the
index; when the key is present but its pointer decodes to a `Remove`
record, `get` fails with `KeyNotFound` instead of reporting a miss. -/
theorem c7_get_none_iff_absent (s : KvStore) (k : String) :
    ((getOp s k).1 = .ok none ↔ lookupIdx s.index k = none) ∧
    (∀ (p : Pointer) (k' : String), lookupIdx s.index k = some p →
      decodeOne ((s.file.drop p.pos).take p.len) = some (.remove k') →
      (getOp s k).1 = .error .keyNotFound) := by
  cases hl : lookupIdx s.index k with
  | none =>
    refine ⟨by simp [getOp, hl], ?_⟩
    intro p k' hp
    simp at hp
  | some p =>
    have h1 : (getOp s k).1 ≠ .ok none := by
      cases hd : decodeOne ((s.file.drop p.pos).take p.len) with
      | none => simp [getOp, hl, hd]
      | some c => cases c <;> simp [getOp, hl, hd]
    refine ⟨⟨fun h => absurd h h1, fun h => by simp at h⟩, ?_⟩
    intro p' k' hp' hd'
    have hpp : p = p' := Option.some.inj hp'
    subst hpp
    simp [getOp, hl, hd']

theorem c7_witness :
    lookupIdx badState.index "a" = some ⟨0, 22⟩ ∧
    decodeOne ((badState.file.drop 0).take 22) = some (.remove "a") ∧
    (getOp badState "a").1 = .error .keyNotFound :=
  ⟨by decide, by decide,
   (c7_get_none_iff_absent badState "a").2 ⟨0, 22⟩ "a" (by decide) (by decide)⟩

/-- C8: compaction runs exactly when the log size right after `set`'s append
exceeds the constant threshold, as the final step of `set`; `remove` never
compacts - whatever the sizes, it leaves `uncompacted` and the path file
untouched. -/
theorem c8_compaction_trigger (s : KvStore) (k v k' : String) :
    ((preSet s k v).file.length ≤ COMPACT_BYTES → setOp s k v = preSet s k v) ∧
    (COMPACT_BYTES < (preSet s k v).file.length → setOp s k v = compactOp (preSet s k v)) ∧
    (removeOp s k').2.uncompacted = s.uncompacted ∧
    (removeOp s k').2.disk = s.disk := by
  refine ⟨?_, ?_, (removeOp_unc_disk s k').1, (removeOp_unc_disk s k').2⟩
  · intro h
    rw [setOp, if_neg (by omega)]
  · intro h
    rw [setOp, if_pos (by omega)]

theorem c8_witness :
    ((preSet openFresh "a" "1").file.length ≤ COMPACT_BYTES ∧
      setOp openFresh "a" "1" = preSet openFresh "a" "1") ∧
    (COMPACT_BYTES < (preSet c1pre "a" bigVal).file.length ∧
      setOp c1pre "a" bigVal = compactOp (preSet c1pre "a" bigVal)) :=
  ⟨⟨by decide, (c8_compaction_trigger openFresh "a" "1" "z").1 (by decide)⟩,
   ⟨by decide, (c8_compaction_trigger c1pre "a" bigVal "z").2.1 (by decide)⟩⟩

/-- C9: `get` never changes the observable engine state - index,
`uncompacted`, the handles' file and the path file are all untouched (only
the reader cursor moves). -/
theorem c9_get_pure (s : KvStore) (k : String) :
    (getOp s k).2.index = s.index ∧ (getOp s k).2.uncompacted = s.uncompacted ∧
    (getOp s k).2.file = s.file ∧ (getOp s k).2.disk = s.disk :=
  ⟨(getOp_state s k).2.2.1, (getOp_state s k).2.2.2, (getOp_state s k).1,
   (getOp_state s k).2.1⟩

/-- C10: across single operations `uncompacted` never decreases except
through compaction, which sets it to exactly 0: `set` either grows it (dead
bytes of a superseded binding) or ends in compaction at 0, `get` and
`remove` keep it unchanged, and compaction itself zeroes it. -/
theorem c10_uncompacted_monotone (s : KvStore) (k v k' k'' : String) :
    (s.uncompacted ≤ (setOp s k v).uncompacted ∨ (setOp s k v).uncompacted = 0) ∧
    (getOp s k').2.uncompacted = s.uncompacted ∧
    (removeOp s k'').2.uncompacted = s.uncompacted ∧
    (compactOp s).uncompacted = 0 := by
  refine ⟨?_, (getOp_state s k').2.2.2, (removeOp_unc_disk s k'').1, rfl⟩
  by_cases hc : (preSet s k v).file.length > COMPACT_BYTES
  · rw [setOp, if_pos hc]
    exact Or.inr rfl
  · rw [setOp, if_neg hc]
    left
    rw [preSet_eq]
    cases h : (insertIdx k ⟨s.file.length, (setRecord k v).length⟩ s.index).1 with
    | none => simp [h]
    | some p => simp [h]

end Kvs
